import Mathlib

/-!
Verification of the TTS synthesis-and-caching core of
`ovos_plugin_manager/templates/tts.py`.

Strings are modelled as `String` / `List Char`; Python exceptions are
modelled with `Except PyErr`; Python `float` durations are modelled as exact
rationals parsed from the decimal literals that occur in the code paths
under study.  External collaborators (cache store, G2P provider, synthesis
backend) are parameters of the definitions, as the source treats them as
plugin interfaces.
-/

/-- Python exception kinds raised by the modelled code paths. -/
inductive PyErr where
  | typeError
  | valueError
  | attributeError
deriving DecidableEq, Repr

/-- Python `needle in haystack` substring test on character lists. -/
def occursIn (pat : List Char) (l : List Char) : Bool :=
  l.tails.any (fun t => pat.isPrefixOf t)

/-- Characters of `l` before its first `'>'` — the `[^>]*` part of a match
of the regex `<[^>]*>` starting just before `l`. -/
def untilGt (l : List Char) : List Char :=
  l.takeWhile (fun x => x != '>')

/-- Characters of `l` from its first `'>'` on (empty when `l` has no `'>'`);
its head, when present, is that `'>'`. -/
def fromGt (l : List Char) : List Char :=
  l.dropWhile (fun x => x != '>')

/-- `re.sub('<[^>]*>', '', text)` (line 241): delete every leftmost,
non-overlapping match of `<[^>]*>`.  A `'<'` with no later `'>'` cannot
start a match and is kept. -/
def stripTags : List Char → List Char
  | [] => []
  | c :: rest =>
    if c = '<' then
      match hm : fromGt rest with
      | _ :: rest' => stripTags rest'
      | [] => c :: rest
    else c :: stripTags rest
termination_by l => l.length
decreasing_by
  · have hle : ∀ (p : Char → Bool) (l : List Char),
        (l.dropWhile p).length ≤ l.length := by
      intro p l
      induction l with
      | nil => simp
      | cons a as ih => by_cases h : p a <;> simp [List.dropWhile, h] <;> omega
    have := hle (fun x => x != '>') rest
    rw [fromGt] at hm
    rw [hm] at this
    simp at this ⊢
    omega
  · simp

/-- Python `s.replace(old, new)` on character lists: replace every leftmost,
non-overlapping occurrence of `pat` by `rep`.  (All patterns used by the
source here are non-empty.) -/
def replaceAll (pat rep : List Char) : List Char → List Char
  | [] => []
  | c :: rest =>
    if h : pat ≠ [] ∧ pat.isPrefixOf (c :: rest) then
      rep ++ replaceAll pat rep ((c :: rest).drop pat.length)
    else
      c :: replaceAll pat rep rest
termination_by l => l.length
decreasing_by
  · have hlen : 1 ≤ pat.length := by
      cases hp : pat with
      | nil => exact absurd hp h.1
      | cons x xs => simp
    simp [List.length_drop]
    omega
  · simp

/-- `TTS.remove_ssml` (lines 231-241): strip every `<...>` tag, then collapse
doubled spaces with one `str.replace` pass. -/
def remove_ssml (text : String) : String :=
  ⟨replaceAll [' ', ' '] [' '] (stripTags text.data)⟩

/-- `SSML_TAGS.findall(utterance)` (lines 30, 305): all leftmost,
non-overlapping matches of `<[^>]*>`. -/
def findTags : List Char → List (List Char)
  | [] => []
  | c :: rest =>
    if c = '<' then
      match hm : fromGt rest with
      | _ :: rest' => ('<' :: (untilGt rest ++ ['>'])) :: findTags rest'
      | [] => findTags rest
    else findTags rest
termination_by l => l.length
decreasing_by
  · have hle : ∀ (p : Char → Bool) (l : List Char),
        (l.dropWhile p).length ≤ l.length := by
      intro p l
      induction l with
      | nil => simp
      | cons a as ih => by_cases h : p a <;> simp [List.dropWhile, h] <;> omega
    have := hle (fun x => x != '>') rest
    rw [fromGt] at hm
    rw [hm] at this
    simp at this ⊢
    omega
  · simp
  · simp

/-- `TTS.validate_ssml` (lines 282-315).  Lines 294-298 call
`format_speak_tags` but discard its return value, so they have no effect on
the returned string; they are therefore absent here.  `modifyTag` is the
overridable `TTS.modify_tag` hook (identity by default, line 201).  When the
supported-tag list is empty the utterance is stripped of all tags
(line 301); otherwise every tag found in the original utterance is either
kept (globally replaced by `modifyTag tag`) when some supported tag name is
a substring of it, or globally replaced by the empty string (lines 304-312),
and doubled spaces are collapsed once at the end (line 315). -/
def validate_ssml (modifyTag : List Char → List Char) (ssml_tags : List String)
    (utterance : String) : String :=
  if ssml_tags.isEmpty then remove_ssml utterance
  else
    let tags := findTags utterance.data
    let u := tags.foldl (fun u tag =>
      if ssml_tags.any (fun sup => occursIn sup.data tag) then
        replaceAll tag (modifyTag tag) u
      else
        replaceAll tag [] u) utterance.data
    ⟨replaceAll [' ', ' '] [' '] u⟩

/-- Follows the spec's words for claim C5: scan the text for all matches of
`<[^>]*>`; keep a matched tag exactly when some supported-tag name is a
substring of it, otherwise delete the tag entirely; the text between tags is
preserved. -/
def specTagPass (supported : List String) : List Char → List Char
  | [] => []
  | c :: rest =>
    if c = '<' then
      match hm : fromGt rest with
      | _ :: rest' =>
        (if supported.any (fun sup => occursIn sup.data ('<' :: (untilGt rest ++ ['>']))) then
          '<' :: (untilGt rest ++ ['>'])
        else []) ++ specTagPass supported rest'
      | [] => c :: rest
    else c :: specTagPass supported rest
termination_by l => l.length
decreasing_by
  · have hle : ∀ (p : Char → Bool) (l : List Char),
        (l.dropWhile p).length ≤ l.length := by
      intro p l
      induction l with
      | nil => simp
      | cons a as ih => by_cases h : p a <;> simp [List.dropWhile, h] <;> omega
    have := hle (fun x => x != '>') rest
    rw [fromGt] at hm
    rw [hm] at this
    simp at this ⊢
    omega
  · simp

/-- Python `s.split(sep, 1)` helper: the text before and after the first
occurrence of `pat`; `none` when `pat` does not occur. -/
def splitOnFirst (pat : List Char) : List Char → Option (List Char × List Char)
  | [] => if pat.isPrefixOf ([] : List Char) then some ([], []) else none
  | c :: rest =>
    if pat.isPrefixOf (c :: rest) then some ([], (c :: rest).drop pat.length)
    else (splitOnFirst pat rest).map (fun p => (c :: p.1, p.2))

/-- Python `s.lstrip(chars)`: drop leading characters belonging to the set. -/
def pyLstrip (chars : List Char) (l : List Char) : List Char :=
  l.dropWhile (fun c => chars.contains c)

/-- Python `s.rstrip(chars)`: drop trailing characters belonging to the set. -/
def pyRstrip (chars : List Char) (l : List Char) : List Char :=
  (l.reverse.dropWhile (fun c => chars.contains c)).reverse

/-- `TTS.format_speak_tags` (lines 243-280): wrap the sentence in `speak`
tags when they are absent, trim text outside the speak tags (using the first
occurrence of each marker, as `split(..., 1)` does), return `""` for the
degenerate `<speak></speak>`, and strip the tags again (with Python's
character-set `lstrip`/`rstrip`) when `include_tags` is false. -/
def format_speak_tags (sentence : String) (include_tags : Bool) : String :=
  let s := sentence.data
  let speakO := "<speak>".data
  let speakC := "</speak>".data
  let to1 :=
    if ¬ occursIn speakO s ∧ ¬ occursIn speakC s then speakO ++ s ++ speakC
    else if ¬ occursIn speakO s then speakO ++ s
    else if ¬ occursIn speakC s then s ++ speakC
    else s
  let to2 :=
    if speakO.isPrefixOf to1 then to1
    else
      match splitOnFirst speakO to1 with
      | some p => speakO ++ p.2
      | none => to1
  let to3 :=
    if speakC.isSuffixOf to2 then to2
    else
      match splitOnFirst speakC to2 with
      | some p => p.1 ++ speakC
      | none => to2 ++ speakC
  if to3 = "<speak></speak>".data then ""
  else if include_tags then ⟨to3⟩
  else ⟨pyRstrip "</speak>".data (pyLstrip "<speak>".data to3)⟩

/-- Decides whether a character list contains a substring matching
`<[^>]*>`, i.e. a `'<'` followed (in any later position) by a `'>'`. -/
def hasTag : List Char → Bool
  | [] => false
  | c :: rest => (c = '<' && rest.contains '>') || hasTag rest

/-- Python `s.split(sep)` for a one-character separator: split on every
occurrence, keeping empty parts, never returning an empty list. -/
def splitOnChar (sep : Char) : List Char → List (List Char)
  | [] => [[]]
  | c :: rest =>
    if c = sep then [] :: splitOnChar sep rest
    else
      match splitOnChar sep rest with
      | t :: ts => (c :: t) :: ts
      | [] => [[c]]

/-- Numeric value of a digit string. -/
def digitsToNat (l : List Char) : Nat :=
  l.foldl (fun n c => 10 * n + (c.toNat - 48)) 0

/-- Modelled from Python's builtin `float()` restricted to the unsigned
decimal literals that reach it here (e.g. `"0.1"`): the exact rational value
of `digits` or `digits.digits`; `none` models the `ValueError` raised on
anything else.  Durations are therefore exact rationals rather than IEEE
doubles; none of the verified properties depend on rounding. -/
def parseFloat (s : List Char) : Option Rat :=
  match splitOnChar '.' s with
  | [w] =>
    if w ≠ [] ∧ w.all Char.isDigit then some ((digitsToNat w : Rat)) else none
  | [w, f] =>
    if w ≠ [] ∧ w.all Char.isDigit ∧ f ≠ [] ∧ f.all Char.isDigit then
      some ((digitsToNat w : Rat) + (digitsToNat f : Rat) / (10 : Rat) ^ f.length)
    else none
  | _ => none

/-- `VISIMES.get(pho, '4')` (lines 551, 554): look the phoneme up in the
mouth-shape table (`VISIMES` lives in the external `ovos_utils` package and
is passed in as a parameter here), defaulting to the neutral code `"4"`. -/
def visCode (tbl : List (List Char × List Char)) (p : List Char) : List Char :=
  (tbl.lookup p).getD ['4']

/-- The token loop of `TTS.viseme` (lines 546-555): a token containing `':'`
is split on `':'`; exactly two parts yield `(code, float(duration))` (a
malformed float raises `ValueError`), any other number of parts is silently
skipped; a bare token yields `(code, 0.2)`. -/
def visemeTokens (tbl : List (List Char × List Char)) :
    List (List Char) → Except PyErr (List (List Char × Rat))
  | [] => Except.ok []
  | tok :: rest =>
    if tok.contains ':' then
      match splitOnChar ':' tok with
      | [p, d] =>
        match parseFloat d with
        | some r => (visemeTokens tbl rest).map (fun l => (visCode tbl p, r) :: l)
        | none => Except.error PyErr.valueError
      | _ => visemeTokens tbl rest
    else
      (visemeTokens tbl rest).map (fun l => (visCode tbl tok, (1 : Rat) / 5) :: l)

/-- `TTS.viseme` (lines 532-556): an empty (falsy) phoneme string yields
`None`; otherwise the string is split on spaces, each token is mapped by
`visemeTokens`, and an empty result list is normalised to `None`
(`return visimes or None`). -/
def viseme (tbl : List (List Char × List Char)) (phonemes : String) :
    Except PyErr (Option (List (List Char × Rat))) :=
  if phonemes.data = [] then Except.ok none
  else
    (visemeTokens tbl (splitOnChar ' ' phonemes.data)).map
      (fun l => if l = [] then none else some l)

/-- Failure modes of `G2P.utterance2visemes`: the expected
`OutOfVocabulary` condition, or any other exception. -/
inductive G2PFail where
  | outOfVocab
  | failure
deriving DecidableEq, Repr

/-- Python truthiness of an optional string: `None` and `""` are falsy. -/
def isFalsyStr : Option String → Bool
  | none => true
  | some s => s = ""

/-- `TTS._get_visemes` (lines 431-448).  The returned pair is the value of
the local `viseme` variable (initialised to the empty list, so `some []`
models Python's `[]` and `none` models `None`) together with a flag that is
true exactly when `LOG.exception` ran, i.e. when the G2P provider failed
with something other than `OutOfVocabulary`.  The G2P branch never lets the
provider's exception escape; the phoneme branch delegates to `viseme`. -/
def get_visemes (g2p : Option (String → Except G2PFail (List (List Char × Rat))))
    (tbl : List (List Char × List Char)) (phonemes : Option String)
    (sentence : String) :
    Except PyErr (Option (List (List Char × Rat)) × Bool) :=
  if isFalsyStr phonemes then
    match g2p with
    | some f =>
      match f sentence with
      | Except.ok l => Except.ok (some l, false)
      | Except.error G2PFail.outOfVocab => Except.ok (some [], false)
      | Except.error G2PFail.failure => Except.ok (some [], true)
    | none => Except.ok (some [], false)
  else
    (viseme tbl (phonemes.getD "")).map (fun v => (v, false))

/-- A character matched by the regex class `[\w']` of
`re.findall(r"[\w']+", sentence)` (line 425), over the ASCII range the
tested sentences use: a letter, digit, underscore or apostrophe. -/
def wordChar (c : Char) : Bool :=
  c.isAlphanum || c = '_' || c = Char.ofNat 39

/-- `re.findall(r"[\w']+", s)`: the maximal runs of word characters. -/
def findWords : List Char → List (List Char)
  | [] => []
  | c :: rest =>
    if wordChar c then
      (c :: rest.takeWhile wordChar) :: findWords (rest.dropWhile wordChar)
    else findWords rest
termination_by l => l.length
decreasing_by
  · have hle : ∀ (p : Char → Bool) (l : List Char),
        (l.dropWhile p).length ≤ l.length := by
      intro p l
      induction l with
      | nil => simp
      | cons a as ih => by_cases h : p a <;> simp [List.dropWhile, h] <;> omega
    have := hle wordChar rest
    simp
    omega
  · simp

/-- Python `word.lower()` on a character list (character-wise lowering, as
for the ASCII words exercised here). -/
def pyLower (l : List Char) : String :=
  ⟨l.map Char.toLower⟩

/-- `TTS._replace_phonetic_spellings` (lines 423-429): when phonetic
spelling is enabled, for every word found in the original sentence whose
lowercased form is a key of the spelling table, globally replace the word's
literal text in the evolving sentence by its phonetic replacement. -/
def replace_phonetic_spellings (phonetic_spelling : Bool)
    (spellings : List (String × String)) (sentence : String) : String :=
  if phonetic_spelling then
    ⟨(findWords sentence.data).foldl (fun s w =>
      match List.lookup (pyLower w) spellings with
      | some spelled => replaceAll w spelled.data s
      | none => s) sentence.data⟩
  else sentence

/-- One item put on the playback queue by `TTS._execute` (lines 479-481):
`(str(audio_file), viseme, listen-flag, ctxt.tts_id, message)`; the opaque
originating message is omitted. -/
structure QItem where
  audio : String
  vis : Option (List (List Char × Rat))
  listen : Bool
  ttsId : String
deriving DecidableEq, Repr

/-- The listen-flag attachment of `TTS._execute` (lines 456-458):
`[(chunks[i], listen if i == len(chunks) - 1 else False) for i in
range(len(chunks))]`. -/
def apply_listen_flags (chunks : List String) (listen : Bool) :
    List (String × Bool) :=
  (List.range chunks.length).map
    (fun i => (chunks.getD i "", if i = chunks.length - 1 then listen else false))

/-- The synth-and-enqueue loop of `TTS._execute` (lines 471-484): chunks are
synthesised strictly in order; each successful synth enqueues one item; an
exception from `synth` aborts the loop (items already enqueued stay on the
queue) and propagates.  Returns the enqueued items in queue order together
with the escaping exception, if any. -/
def execute_loop (synthFn : String → Except PyErr (String × Option String))
    (getVis : Option String → String → Option (List (List Char × Rat)))
    (ttsId : String) : List (String × Bool) → List QItem × Option PyErr
  | [] => ([], none)
  | (s, l) :: rest =>
    match synthFn s with
    | Except.error e => ([], some e)
    | Except.ok (audio, ph) =>
      let r := execute_loop synthFn getVis ttsId rest
      (⟨audio, getVis ph s, l, ttsId⟩ :: r.1, r.2)

/-- `TTS._execute` (lines 450-484): phonetic-spelling substitution,
chunking via the overridable `_preprocess_sentence` hook, listen-flag
attachment, then the synth-and-enqueue loop.  `synthFn` and `getVis`
abstract `self.synth` and `self._get_visemes` for one resolved context. -/
def tts_execute (synthFn : String → Except PyErr (String × Option String))
    (getVis : Option String → String → Option (List (List Char × Rat)))
    (ttsId : String) (phonetic_spelling : Bool)
    (spellings : List (String × String)) (preprocess : String → List String)
    (sentence : String) (listen : Bool) : List QItem × Option PyErr :=
  let s := replace_phonetic_spellings phonetic_spelling spellings sentence
  let chunks := preprocess s
  execute_loop synthFn getVis ttsId (apply_listen_flags chunks listen)

/-- `TTS._preprocess_sentence` default (lines 186-199): no splitting. -/
def preprocess_default (sentence : String) : List String :=
  [sentence]

/-- The item `execute_loop` enqueues for one (chunk, flag) pair when its
synth succeeds (the error case never occurs under the theorems' success
hypothesis). -/
def okItem (synthFn : String → Except PyErr (String × Option String))
    (getVis : Option String → String → Option (List (List Char × Rat)))
    (ttsId : String) (p : String × Bool) : QItem :=
  match synthFn p.1 with
  | Except.ok (audio, ph) => ⟨audio, getVis ph p.1, p.2, ttsId⟩
  | Except.error _ => ⟨"", none, p.2, ttsId⟩

/-- `os.path.join` for two path components, as used by `TTSContext.tts_id`:
an absolute second component resets the path; otherwise the components are
joined with `"/"` (inserted only when needed). -/
def pyJoin2 (a b : String) : String :=
  if b.startsWith "/" then b
  else if a = "" ∨ a.endsWith "/" then a ++ b
  else a ++ "/" ++ b

/-- `TTSContext.tts_id` (lines 53-55): `join(plugin_id, voice, lang)`. -/
def tts_id (plugin_id voice lang : String) : String :=
  pyJoin2 (pyJoin2 plugin_id voice) lang

/-- The process-wide `TTSContext._caches` registry (line 34), with cache
instances identified by allocation number: `caches` maps a namespace
(`tts_id`) to its instance, `nextId` is the next fresh instance. -/
structure CacheRegistry where
  caches : List (String × Nat)
  nextId : Nat
deriving DecidableEq, Repr

/-- `TTSContext.get_cache` (lines 57-68): construct and store a new cache
instance when the namespace has none, then return the registry's instance
for the namespace. -/
def get_cache (id : String) (r : CacheRegistry) : Nat × CacheRegistry :=
  let r' :=
    if (r.caches.lookup id).isSome then r
    else { caches := (id, r.nextId) :: r.caches, nextId := r.nextId + 1 }
  (((r'.caches.lookup id)).getD 0, r')

/-- The keyword-argument pipeline of `TTS.synth` (lines 496-520): the map is
a function from key to optional value; `kwargs["lang"]` and
`kwargs["voice"]` are overwritten with the resolved context's values
(lines 496-497), then keys are filtered to those accepted by the backend's
`get_tts` signature, minus `"sentence"` and `"wav_file"` (lines 518-520). -/
def synth_params (ctxtLang ctxtVoice : String) (accepted : String → Bool)
    (kwargs : String → Option String) : String → Option String :=
  fun key =>
    if accepted key && !(key == "sentence" || key == "wav_file") then
      if key = "voice" then some ctxtVoice
      else if key = "lang" then some ctxtLang
      else kwargs key
    else none

/-- Modelled from the spec: `hash_sentence` of
`ovos_plugin_manager.utils.tts_cache` (not under `src/`) is a deterministic
pure fingerprint of the sentence text only; it is modelled as the text
itself. -/
def hash_sentence (sentence : String) : String :=
  sentence

/-- Modelled from the spec: `cache.define_audio_file(sentence_hash)` (the
cache store is external) allocates an audio artifact handle keyed by the
fingerprint; modelled as the path it denotes. -/
def define_audio_file_path (h : String) : String :=
  h ++ ".wav"

/-- One cache entry: `cache.cached_sentences[hash] = (audio_file,
pho_file)`, with the phoneme artifact's contents when present. -/
structure CacheEntry where
  audio : String
  pho : Option String
deriving DecidableEq, Repr

/-- The mutable state `TTS.synth` touches: the namespace's
`cached_sentences` map and a count of `get_tts` backend invocations. -/
structure TTSState where
  entries : List (String × CacheEntry)
  backendCalls : Nat
deriving DecidableEq, Repr

/-- `TTS._cache_phonemes` (lines 559-571) reduced to the phoneme contents it
stores and returns: when no phonemes were supplied and a G2P provider is
configured, try `utterance2arpa` (its exceptions are caught, leaving the
phonemes absent); save and return the phonemes when truthy, else nothing. -/
def cache_phonemes (g2pArpa : Option (String → Option String))
    (sentence : String) (phonemes : Option String) : Option String :=
  let ph :=
    if isFalsyStr phonemes then
      match g2pArpa with
      | some f =>
        match f sentence with
        | some a => some a
        | none => phonemes
      | none => phonemes
    else phonemes
  if isFalsyStr ph then none else ph

/-- `TTS.synth` (lines 486-530) for one namespace, with `enable_cache`,
the G2P provider and the `get_tts` backend as parameters.

Cache-hit branch (lines 502-509): the source calls
`self.get_from_cache(sentence, cache)` (line 503), but `TTS.get_from_cache`
is the deprecated wrapper `def get_from_cache(self, sentence)` (line 688),
so the extra positional `cache` argument makes the interpreter raise
`TypeError` before anything else happens; the branch is therefore modelled
as that error.  (Were the call to succeed, line 506 would next pass
`sentence_hash` as the `cache` positional parameter of `_cache_phonemes`.)

Cache-miss branch (lines 511-530): allocate the audio handle, invoke the
backend, and when caching is enabled store the entry (with phonemes from
the backend or the G2P provider) under the sentence hash. -/
def synth (enable_cache : Bool) (g2pArpa : Option (String → Option String))
    (get_tts : String → String → String × Option String) (sentence : String)
    (st : TTSState) : Except PyErr ((String × Option String) × TTSState) :=
  let h := hash_sentence sentence
  if enable_cache && (st.entries.lookup h).isSome then
    Except.error PyErr.typeError
  else
    let audioPath := define_audio_file_path h
    let res := get_tts sentence audioPath
    let st' : TTSState :=
      { st with backendCalls := st.backendCalls + 1 }
    if enable_cache then
      Except.ok (res,
        { st' with
          entries := (h, ⟨res.1, cache_phonemes g2pArpa sentence res.2⟩) :: st'.entries })
    else
      Except.ok (res, st')

/-- A viseme-string token of one of the two shapes named by the spec:
either a bare phoneme (no `':'`), or `phoneme:duration` with a duration
that `float()` accepts. -/
def TokenWF (tok : List Char) : Prop :=
  tok.contains ':' = false ∨
    ∃ p d r, splitOnChar ':' tok = [p, d] ∧ parseFloat d = some r

/-- How `TTS.viseme` maps one well-formed token to a (code, duration) pair:
a bare phoneme gets the default duration `0.2`, a `phoneme:duration` token
its explicit duration; the code comes from the lookup table with neutral
default. -/
def TokMaps (tbl : List (List Char × List Char)) (tok : List Char)
    (pair : List Char × Rat) : Prop :=
  (tok.contains ':' = false ∧ pair = (visCode tbl tok, (1 : Rat) / 5)) ∨
    ∃ p d, splitOnChar ':' tok = [p, d] ∧ parseFloat d = some pair.2 ∧
      pair.1 = visCode tbl p

theorem length_dropWhile_le (p : Char → Bool) (l : List Char) :
    (l.dropWhile p).length ≤ l.length := by
  induction l with
  | nil => simp
  | cons a as ih => by_cases h : p a <;> simp [List.dropWhile, h] <;> omega

theorem contains_gt_eq_false_of_fromGt_nil {l : List Char}
    (h : fromGt l = []) : l.contains '>' = false := by
  rw [fromGt, List.dropWhile_eq_nil_iff] at h
  rw [Bool.eq_false_iff]
  intro hc
  have hm : '>' ∈ l := List.elem_iff.mp hc
  have := h _ hm
  simp at this

theorem hasTag_eq_false_of_no_gt {l : List Char}
    (h : l.contains '>' = false) : hasTag l = false := by
  induction l with
  | nil => simp [hasTag]
  | cons c rest ih =>
    have hc : ('>' ∈ c :: rest) = False := by
      simp only [eq_iff_iff, iff_false]
      intro hm
      rw [Bool.eq_false_iff] at h
      exact h (List.elem_iff.mpr hm)
    have hrest : rest.contains '>' = false := by
      rw [Bool.eq_false_iff]
      intro hc'
      have : '>' ∈ c :: rest := List.mem_cons_of_mem _ (List.elem_iff.mp hc')
      rw [hc] at this
      exact this
    have hcr : rest.contains '>' = false → (rest.contains '>') = false := id
    rw [hasTag, ih hrest, hrest]
    simp

theorem hasTag_eq_true_of_sublist {l₁ l₂ : List Char} (h : l₁.Sublist l₂)
    (ht : hasTag l₁ = true) : hasTag l₂ = true := by
  induction h with
  | slnil => simp [hasTag] at ht
  | cons a hsub ih =>
    rw [hasTag]
    rw [ih ht]
    simp
  | cons₂ a hsub ih =>
    rw [hasTag] at ht ⊢
    rcases Bool.or_eq_true_iff.mp ht with hl | hr
    · rcases Bool.and_eq_true_iff.mp hl with ⟨ha, hm⟩
      have : '>' ∈ _ := List.elem_iff.mp hm
      have hmem := hsub.subset this
      rw [Bool.or_eq_true_iff]
      left
      rw [Bool.and_eq_true_iff]
      exact ⟨ha, List.elem_iff.mpr hmem⟩
    · rw [Bool.or_eq_true_iff]
      right
      exact ih hr

theorem stripTags_no_tag : ∀ l : List Char, hasTag (stripTags l) = false := by
  intro l
  generalize hn : l.length = n
  induction n using Nat.strong_induction_on generalizing l with
  | _ n ih =>
    cases l with
    | nil => simp [stripTags, hasTag]
    | cons c rest =>
      simp only [stripTags]
      split
      · rename_i hc
        split
        · rename_i x rest' heq
          have hle := length_dropWhile_le (fun x => x != '>') rest
          rw [show rest.dropWhile (fun x => x != '>') = fromGt rest from rfl, heq] at hle
          simp at hle
          rw [List.length_cons] at hn
          exact ih rest'.length (by omega) rest' rfl
        · rename_i heq
          have hng := contains_gt_eq_false_of_fromGt_nil heq
          have hng' : (c :: rest).contains '>' = false := by
            rw [Bool.eq_false_iff]
            intro hcc
            rcases List.mem_cons.mp (List.elem_iff.mp hcc) with h1 | h2
            · rw [hc] at h1
              exact absurd h1 (by decide)
            · rw [Bool.eq_false_iff] at hng
              exact hng (List.elem_iff.mpr h2)
          exact hasTag_eq_false_of_no_gt hng'
      · rename_i hc
        rw [hasTag]
        have : (decide (c = '<')) = false := by
          simpa using hc
        rw [this]
        simp only [Bool.false_and, Bool.false_or]
        rw [List.length_cons] at hn
        exact ih rest.length (by omega) rest rfl

theorem replaceAll_sublist {pat rep : List Char} (h : rep.Sublist pat) :
    ∀ l : List Char, (replaceAll pat rep l).Sublist l := by
  intro l
  generalize hn : l.length = n
  induction n using Nat.strong_induction_on generalizing l with
  | _ n ih =>
    cases l with
    | nil => simp [replaceAll]
    | cons c rest =>
      simp only [replaceAll]
      split
      · rename_i hcond
        obtain ⟨hne, hpre⟩ := hcond
        have hpre' : pat <+: (c :: rest) := List.isPrefixOf_iff_prefix.mp hpre
        have heq : pat ++ (c :: rest).drop pat.length = c :: rest :=
          List.prefix_iff_eq_append.mp hpre'
        have hpat1 : 1 ≤ pat.length := by
          cases hp : pat with
          | nil => exact absurd hp hne
          | cons x xs => simp
        have hdl : ((c :: rest).drop pat.length).length < n := by
          rw [List.length_drop]
          simp only [List.length_cons] at hn ⊢
          omega
        conv_rhs => rw [← heq]
        exact List.Sublist.append h (ih _ hdl _ rfl)
      · rw [List.length_cons] at hn
        exact List.Sublist.cons₂ c (ih rest.length (by omega) rest rfl)

theorem replaceAll_self (pat : List Char) :
    ∀ l : List Char, replaceAll pat pat l = l := by
  intro l
  generalize hn : l.length = n
  induction n using Nat.strong_induction_on generalizing l with
  | _ n ih =>
    cases l with
    | nil => simp [replaceAll]
    | cons c rest =>
      simp only [replaceAll]
      split
      · rename_i hcond
        obtain ⟨hne, hpre⟩ := hcond
        have hpre' : pat <+: (c :: rest) := List.isPrefixOf_iff_prefix.mp hpre
        have heq : pat ++ (c :: rest).drop pat.length = c :: rest :=
          List.prefix_iff_eq_append.mp hpre'
        have hpat1 : 1 ≤ pat.length := by
          cases hp : pat with
          | nil => exact absurd hp hne
          | cons x xs => simp
        have hdl : ((c :: rest).drop pat.length).length < n := by
          rw [List.length_drop]
          simp only [List.length_cons] at hn ⊢
          omega
        rw [ih _ hdl _ rfl]
        exact heq
      · rw [List.length_cons] at hn
        rw [ih rest.length (by omega) rest rfl]

theorem hasTag_iff_decomp (l : List Char) :
    hasTag l = true ↔ ∃ a m b, l = a ++ '<' :: (m ++ '>' :: b) := by
  induction l with
  | nil =>
    constructor
    · intro h
      simp [hasTag] at h
    · rintro ⟨a, m, b, hab⟩
      exact absurd hab (by simp)
  | cons c rest ih =>
    rw [hasTag]
    constructor
    · intro h
      rcases Bool.or_eq_true_iff.mp h with hl | hr
      · obtain ⟨hc, hm⟩ := Bool.and_eq_true_iff.mp hl
        have hc' : c = '<' := by simpa using hc
        have hmem : '>' ∈ rest := List.elem_iff.mp hm
        obtain ⟨s, t, hst⟩ := List.append_of_mem hmem
        exact ⟨[], s, t, by rw [hc', hst]; simp⟩
      · obtain ⟨a, m, b, hab⟩ := ih.mp hr
        exact ⟨c :: a, m, b, by rw [hab]; simp⟩
    · rintro ⟨a, m, b, hab⟩
      cases a with
      | nil =>
        rw [List.nil_append] at hab
        rw [List.cons.injEq] at hab
        obtain ⟨hc, hrest⟩ := hab
        apply Bool.or_eq_true_iff.mpr
        left
        apply Bool.and_eq_true_iff.mpr
        refine ⟨by simp [hc], ?_⟩
        rw [hrest]
        exact List.elem_iff.mpr (by simp)
      | cons x a' =>
        rw [List.cons_append, List.cons.injEq] at hab
        obtain ⟨hx, hrest⟩ := hab
        apply Bool.or_eq_true_iff.mpr
        right
        exact ih.mpr ⟨a', m, b, hrest⟩

/-- C4: with an empty supported-tag set, `validate_ssml` is exactly
`remove_ssml` (the terminal case — no tag pass follows), whose output never
contains a substring matching `<[^>]*>` (`hasTag` decides exactly that, see
`hasTag_iff_decomp`); in particular `"Hello <foo>world</foo>"` becomes
exactly `"Hello world"`. -/
theorem c4_empty_tags_strip :
    (∀ s : String, hasTag (remove_ssml s).data = false)
    ∧ validate_ssml id [] "Hello <foo>world</foo>" = "Hello world"
    ∧ (∀ u : String, validate_ssml id [] u = remove_ssml u) := by
  refine ⟨?_, ?_, ?_⟩
  · intro s
    show hasTag (replaceAll [' ', ' '] [' '] (stripTags s.data)) = false
    have hsub : (replaceAll [' ', ' '] [' '] (stripTags s.data)).Sublist
        (stripTags s.data) := replaceAll_sublist (by decide) _
    cases hb : hasTag (replaceAll [' ', ' '] [' '] (stripTags s.data)) with
    | false => rfl
    | true =>
      have := hasTag_eq_true_of_sublist hsub hb
      rw [stripTags_no_tag] at this
      exact absurd this (by simp)
  · simp +decide [validate_ssml, remove_ssml, stripTags, fromGt, replaceAll,
      List.dropWhile]
  · intro u
    simp [validate_ssml]

theorem foldl_keep_of_all_supported (ssml_tags : List String)
    (ts : List (List Char))
    (hk : ∀ t ∈ ts, ssml_tags.any (fun sup => occursIn sup.data t) = true) :
    ∀ u : List Char,
      ts.foldl (fun u tag =>
        if ssml_tags.any (fun sup => occursIn sup.data tag) then
          replaceAll tag (id tag) u
        else
          replaceAll tag [] u) u = u := by
  induction ts with
  | nil => simp
  | cons t ts ih =>
    intro u
    rw [List.foldl_cons]
    have hkt := hk t (by simp)
    rw [hkt]
    simp only [if_true, id_eq]
    rw [replaceAll_self]
    exact ih (fun t' ht' => hk t' (by simp [ht'])) u

/-- C5 (amended): with a non-empty supported-tag set and the default
(identity) `modify_tag`, every found tag with a supported-name substring
leaves the utterance unchanged, so when all found tags are supported the
result is the utterance with only the final doubled-space collapse; an
unsupported tag has every occurrence of its text deleted by global
replacement; `"<speak>Hi</speak>"` with supported tag `"speak"` is returned
unchanged, and `"Hello <foo>world</foo>"` with supported tag `"speak"`
becomes `"Hello world"`. -/
theorem c5_tag_pass_amended :
    (∀ (ssml_tags : List String) (u : String),
      ssml_tags.isEmpty = false →
      (∀ t ∈ findTags u.data,
        ssml_tags.any (fun sup => occursIn sup.data t) = true) →
      validate_ssml id ssml_tags u = ⟨replaceAll [' ', ' '] [' '] u.data⟩)
    ∧ validate_ssml id ["speak"] "<speak>Hi</speak>" = "<speak>Hi</speak>"
    ∧ validate_ssml id ["speak"] "Hello <foo>world</foo>" = "Hello world" := by
  refine ⟨?_, ?_, ?_⟩
  · intro ssml_tags u hne hk
    unfold validate_ssml
    rw [hne]
    simp only [Bool.false_eq_true, if_false]
    rw [foldl_keep_of_all_supported ssml_tags (findTags u.data) hk u.data]
  · simp +decide [validate_ssml, findTags, fromGt, untilGt, occursIn, replaceAll,
      List.dropWhile, List.takeWhile]
  · simp +decide [validate_ssml, findTags, fromGt, untilGt, occursIn, replaceAll,
      List.dropWhile, List.takeWhile]

/-- C5 witness: keep-all instance of the general part at a concrete input. -/
theorem c5_tag_pass_amended_witness :
    validate_ssml id ["speak"] "a<speak>b" =
      ⟨replaceAll [' ', ' '] [' '] ("a<speak>b").data⟩ :=
  c5_tag_pass_amended.1 ["speak"] "a<speak>b" (by decide)
    (by simp +decide [findTags, fromGt, untilGt, List.dropWhile, List.takeWhile])

/-- C5 counterexample: the claim's reading "deletes the tag entirely while
preserving the text between tags" (the spec-side `specTagPass`) is false for
the code: on `"x<a>y<a<a>z"` with supported tags `["b"]`, deleting the
matched tag `"<a>"` by global replacement also hits the inside of the other
matched tag `"<a<a>"`, so the code returns `"xy<az"` while the described
scan-and-delete pass returns `"xyz"`. -/
theorem c5_tag_pass_counterexample :
    (validate_ssml id ["b"] "x<a>y<a<a>z" ==
      String.mk (specTagPass ["b"] ("x<a>y<a<a>z").data)) = false := by
  simp +decide [validate_ssml, specTagPass, findTags, fromGt, untilGt, occursIn,
    replaceAll, List.dropWhile, List.takeWhile]

/-- C2: for the non-empty supported-tag set `["prosody"]` the code returns
`"Hi"` unchanged — no `speak` wrapper is added — because lines 294-298 of
`validate_ssml` call `format_speak_tags` and discard its result, while
`format_speak_tags` itself (the intended normalisation) does wrap: it wraps
a bare sentence, prepends a missing opening tag and appends a missing
closing tag.  The final conjunct exhibits the divergence between the value
the code computes-and-discards and the value it returns. -/
theorem c2_speak_wrap_discarded :
    validate_ssml id ["prosody"] "Hi" = "Hi"
    ∧ format_speak_tags "Hi" true = "<speak>Hi</speak>"
    ∧ format_speak_tags "<speak>Hi" true = "<speak>Hi</speak>"
    ∧ format_speak_tags "Hi</speak>" true = "<speak>Hi</speak>"
    ∧ (validate_ssml id ["prosody"] "Hi" == format_speak_tags "Hi" true) = false := by
  refine ⟨?_, by decide, by decide, by decide, ?_⟩
  · simp +decide [validate_ssml, findTags, fromGt, untilGt, occursIn, replaceAll,
      List.dropWhile, List.takeWhile]
  · simp +decide [validate_ssml, findTags, fromGt, untilGt, occursIn, replaceAll,
      format_speak_tags, splitOnFirst, pyLstrip, pyRstrip,
      List.dropWhile, List.takeWhile]

theorem splitOnChar_ne_nil (sep : Char) (l : List Char) :
    splitOnChar sep l ≠ [] := by
  induction l with
  | nil => simp [splitOnChar]
  | cons c rest ih =>
    rw [splitOnChar]
    split
    · simp
    · split
      · simp
      · simp

theorem splitOnChar_eq_self_of_no_sep {sep : Char} {l : List Char}
    (h : l.contains sep = false) : splitOnChar sep l = [l] := by
  induction l with
  | nil => rfl
  | cons c rest ih =>
    have hc : ¬ (c = sep) := by
      intro hc
      rw [Bool.eq_false_iff] at h
      exact h (List.elem_iff.mpr (by simp [hc]))
    have hrest : rest.contains sep = false := by
      rw [Bool.eq_false_iff]
      intro hr
      rw [Bool.eq_false_iff] at h
      exact h (List.elem_iff.mpr (List.mem_cons_of_mem _ (List.elem_iff.mp hr)))
    rw [splitOnChar, if_neg hc, ih hrest]

theorem visemeTokens_wf (tbl : List (List Char × List Char))
    (toks : List (List Char)) (h : ∀ t ∈ toks, TokenWF t) :
    ∃ l, visemeTokens tbl toks = Except.ok l ∧
      List.Forall₂ (TokMaps tbl) toks l := by
  induction toks with
  | nil => exact ⟨[], rfl, List.Forall₂.nil⟩
  | cons tok rest ih =>
    obtain ⟨l, hl, hf⟩ := ih (fun t ht => h t (List.mem_cons_of_mem _ ht))
    rcases h tok (by simp) with hnc | ⟨p, d, r, hsplit, hparse⟩
    · refine ⟨(visCode tbl tok, (1 : Rat) / 5) :: l, ?_, ?_⟩
      · rw [visemeTokens, hnc]
        simp only [Bool.false_eq_true, if_false, hl]
        rfl
      · exact List.Forall₂.cons (Or.inl ⟨hnc, rfl⟩) hf
    · have hcc : tok.contains ':' = true := by
        cases hcv : tok.contains ':' with
        | true => rfl
        | false =>
          rw [splitOnChar_eq_self_of_no_sep hcv] at hsplit
          simp at hsplit
      refine ⟨(visCode tbl p, r) :: l, ?_, ?_⟩
      · rw [visemeTokens, hcc]
        simp only [if_true]
        split
        · rename_i p' d' heq
          rw [hsplit] at heq
          obtain ⟨hp', hd'⟩ : p = p' ∧ d = d' := by
            simpa using heq
          subst hp'
          subst hd'
          rw [hparse, hl]
          rfl
        · rename_i x hx
          exact absurd hsplit (hx p d)
      · exact List.Forall₂.cons (Or.inr ⟨p, d, hsplit, hparse, rfl⟩) hf

/-- C6: a non-empty phoneme string whose space-separated tokens are all
well formed maps, token by token and in order (`Forall₂`), to
(mouth-shape-code, duration) pairs — explicit duration for
`phoneme:duration` tokens, `0.2` for bare ones — and the non-empty result is
wrapped in `some`; `"HH:0.1 AH:0.2"` yields durations `0.1` and `0.2`,
`"HH AH"` yields two default durations `0.2`, a phoneme absent from the
table gets the neutral code `"4"`, and a non-empty input whose tokens all
get skipped (e.g. `"a::1"`) yields the sentinel `none`, not an empty list. -/
theorem c6_viseme :
    (∀ (tbl : List (List Char × List Char)) (ph : String), ph.data ≠ [] →
      (∀ t ∈ splitOnChar ' ' ph.data, TokenWF t) →
      ∃ l, l ≠ [] ∧ visemeTokens tbl (splitOnChar ' ' ph.data) = Except.ok l ∧
        List.Forall₂ (TokMaps tbl) (splitOnChar ' ' ph.data) l ∧
        viseme tbl ph = Except.ok (some l))
    ∧ (∀ tbl : List (List Char × List Char), viseme tbl "HH:0.1 AH:0.2" =
        Except.ok (some [(visCode tbl "HH".data, (1 : Rat) / 10),
          (visCode tbl "AH".data, (1 : Rat) / 5)]))
    ∧ (∀ tbl : List (List Char × List Char), viseme tbl "HH AH" =
        Except.ok (some [(visCode tbl "HH".data, (1 : Rat) / 5),
          (visCode tbl "AH".data, (1 : Rat) / 5)]))
    ∧ viseme [] "ZZ" = Except.ok (some [(['4'], (1 : Rat) / 5)])
    ∧ viseme [] "a::1" = Except.ok none := by
  refine ⟨?_, ?_, ?_, ?_, ?_⟩
  · intro tbl ph hne hwf
    obtain ⟨l, hl, hf⟩ := visemeTokens_wf tbl (splitOnChar ' ' ph.data) hwf
    have htoksne : splitOnChar ' ' ph.data ≠ [] := splitOnChar_ne_nil _ _
    have hlne : l ≠ [] := by
      intro h0
      apply htoksne
      have hlen := hf.length_eq
      rw [h0] at hlen
      simpa using List.length_eq_zero.mp hlen
    refine ⟨l, hlne, hl, hf, ?_⟩
    rw [viseme, if_neg hne, hl]
    simp [Except.map, hlne]
  · intro tbl
    simp +decide [viseme, visemeTokens, splitOnChar, parseFloat, digitsToNat,
      Except.map]
    norm_num
  · intro tbl
    simp +decide [viseme, visemeTokens, splitOnChar, parseFloat, digitsToNat,
      Except.map]
  · simp +decide [viseme, visemeTokens, splitOnChar, parseFloat, digitsToNat,
      Except.map, visCode, List.lookup]
  · simp +decide [viseme, visemeTokens, splitOnChar, parseFloat, digitsToNat,
      Except.map, visCode, List.lookup]

/-- C6 witness: the general token-mapping part applied to `"HH AH"`. -/
theorem c6_viseme_witness :
    ∃ l, l ≠ [] ∧
      visemeTokens [] (splitOnChar ' ' ("HH AH" : String).data) = Except.ok l ∧
      List.Forall₂ (TokMaps []) (splitOnChar ' ' ("HH AH" : String).data) l ∧
      viseme [] "HH AH" = Except.ok (some l) :=
  c6_viseme.1 [] "HH AH" (by decide)
    (by
      have hs : splitOnChar ' ' ("HH AH" : String).data =
          [['H', 'H'], ['A', 'H']] := by decide
      rw [hs]
      intro t ht
      rcases List.mem_cons.mp ht with h1 | ht2
      · exact h1 ▸ Or.inl (by decide)
      · rcases List.mem_cons.mp ht2 with h2 | h3
        · exact h2 ▸ Or.inl (by decide)
        · simp at h3)

/-- C7: with no phonemes available (falsy) and a configured G2P provider,
`_get_visemes` calls the provider and never lets its failure escape: an
out-of-vocabulary failure is swallowed silently (no exception logged) and
yields no visemes, any other failure is logged (`true` flag) and yields no
visemes, and a success yields the provider's visemes. -/
theorem c7_g2p_degrade :
    ∀ (f : String → Except G2PFail (List (List Char × Rat)))
      (tbl : List (List Char × List Char)) (phonemes : Option String)
      (sentence : String), isFalsyStr phonemes = true →
      get_visemes (some f) tbl phonemes sentence =
        Except.ok (match f sentence with
          | Except.ok l => (some l, false)
          | Except.error G2PFail.outOfVocab => (some [], false)
          | Except.error G2PFail.failure => (some [], true)) := by
  intro f tbl ph s h
  rw [get_visemes, h]
  simp only [if_true]
  cases hf : f s with
  | ok l => rfl
  | error e => cases e <;> rfl

/-- C7 witness: an unexpected G2P failure degrades to no visemes with the
exception logged. -/
theorem c7_g2p_degrade_witness :
    get_visemes (some (fun _ => Except.error G2PFail.failure)) [] none "x" =
      Except.ok (some [], true) :=
  c7_g2p_degrade (fun _ => Except.error G2PFail.failure) [] none "x" rfl

theorem foldl_spell_id (sp : List (String × String))
    (ws : List (List Char))
    (h : ∀ w ∈ ws, List.lookup (pyLower w) sp = none) :
    ∀ s : List Char,
      ws.foldl (fun s w =>
        match List.lookup (pyLower w) sp with
        | some spelled => replaceAll w spelled.data s
        | none => s) s = s := by
  induction ws with
  | nil => simp
  | cons w ws ih =>
    intro s
    rw [List.foldl_cons]
    have hw := h w (by simp)
    rw [hw]
    exact ih (fun w' hw' => h w' (List.mem_cons_of_mem _ hw')) s

/-- C8 (amended): a word of the sentence whose lowercase form is a key has
every occurrence of its literal text in the sentence replaced by the
phonetic replacement via global string replacement — so the same letters
inside a longer word are rewritten too; a sentence none of whose words is a
key is returned unchanged, as is any sentence when phonetic spelling is
disabled; `"the cat"` becomes `"the kat"`, while `"cat catalog"` becomes
`"kat katalog"` (the non-key word `"catalog"` is rewritten because it
contains the key's text). -/
theorem c8_spellings_amended :
    (∀ (sp : List (String × String)) (sentence : String),
      (∀ w ∈ findWords sentence.data, List.lookup (pyLower w) sp = none) →
      replace_phonetic_spellings true sp sentence = sentence)
    ∧ replace_phonetic_spellings true [("cat", "kat")] "the cat" = "the kat"
    ∧ (∀ (sp : List (String × String)) (sentence : String),
        replace_phonetic_spellings false sp sentence = sentence)
    ∧ replace_phonetic_spellings true [("cat", "kat")] "cat catalog" =
        "kat katalog" := by
  refine ⟨?_, ?_, ?_, ?_⟩
  · intro sp sentence h
    obtain ⟨d⟩ := sentence
    rw [replace_phonetic_spellings, if_pos rfl]
    rw [foldl_spell_id sp (findWords (String.mk d).data) h (String.mk d).data]
  · simp +decide [replace_phonetic_spellings, findWords, wordChar, replaceAll,
      List.dropWhile, List.takeWhile, List.lookup, pyLower]
  · intro sp sentence
    rw [replace_phonetic_spellings]
    simp
  · simp +decide [replace_phonetic_spellings, findWords, wordChar, replaceAll,
      List.dropWhile, List.takeWhile, List.lookup, pyLower]

/-- C8 witness: the no-key-word part applied to a concrete sentence. -/
theorem c8_spellings_amended_witness :
    replace_phonetic_spellings true [("cat", "kat")] "good dog" = "good dog" :=
  c8_spellings_amended.1 [("cat", "kat")] "good dog"
    (by
      have hw : findWords ("good dog" : String).data =
          [['g', 'o', 'o', 'd'], ['d', 'o', 'g']] := by
        simp +decide [findWords, wordChar, List.dropWhile, List.takeWhile]
      rw [hw]
      intro w hmem
      rcases List.mem_cons.mp hmem with h1 | h2
      · exact h1 ▸ (by decide)
      · rcases List.mem_cons.mp h2 with h3 | h4
        · exact h3 ▸ (by decide)
        · simp at h4)

/-- C8 counterexample: the claim as stated — words not in the table are
left unchanged — is false: with table `"cat" → "kat"` and sentence
`"cat catalog"`, the code produces `"kat katalog"`, rewriting the word
`"catalog"` even though its lowercase form is not a key. -/
theorem c8_spellings_counterexample :
    replace_phonetic_spellings true [("cat", "kat")] "cat catalog" =
        "kat katalog"
    ∧ List.lookup (pyLower ("catalog" : String).data) [("cat", "kat")] = none
    ∧ (("kat katalog" : String) == "kat catalog") = false := by
  refine ⟨?_, by decide, by decide⟩
  simp +decide [replace_phonetic_spellings, findWords, wordChar, replaceAll,
    List.dropWhile, List.takeWhile, List.lookup, pyLower]

theorem okItem_listen (synthFn : String → Except PyErr (String × Option String))
    (getVis : Option String → String → Option (List (List Char × Rat)))
    (ttsId : String) (p : String × Bool) :
    (okItem synthFn getVis ttsId p).listen = p.2 := by
  rw [okItem]
  split <;> rfl

theorem execute_loop_all_ok (synthFn : String → Except PyErr (String × Option String))
    (getVis : Option String → String → Option (List (List Char × Rat)))
    (ttsId : String) :
    ∀ pairs : List (String × Bool),
      (∀ p ∈ pairs, ∃ v, synthFn p.1 = Except.ok v) →
      execute_loop synthFn getVis ttsId pairs =
        (pairs.map (okItem synthFn getVis ttsId), none) := by
  intro pairs h
  induction pairs with
  | nil => rfl
  | cons p rest ih =>
    obtain ⟨s, l⟩ := p
    obtain ⟨v, hv⟩ := h (s, l) (by simp)
    obtain ⟨audio, ph⟩ := v
    rw [execute_loop, hv]
    rw [ih (fun p hp => h p (List.mem_cons_of_mem _ hp))]
    simp [okItem, hv]

theorem apply_listen_flags_length (chunks : List String) (listen : Bool) :
    (apply_listen_flags chunks listen).length = chunks.length := by
  simp [apply_listen_flags]

theorem apply_listen_flags_fst (chunks : List String) (listen : Bool) :
    (apply_listen_flags chunks listen).map Prod.fst = chunks := by
  rw [apply_listen_flags, List.map_map]
  apply List.ext_getElem
  · simp
  · intro n h1 h2
    simp only [List.getElem_map, List.getElem_range, Function.comp]
    exact List.getD_eq_getElem chunks "" h2

theorem apply_listen_flags_snd (chunks : List String) (listen : Bool)
    (hne : chunks ≠ []) :
    (apply_listen_flags chunks listen).map Prod.snd =
      List.replicate (chunks.length - 1) false ++ [listen] := by
  obtain ⟨m, hm⟩ : ∃ m, chunks.length = m + 1 := by
    cases hc : chunks with
    | nil => exact absurd hc hne
    | cons a as => exact ⟨as.length, by simp⟩
  rw [apply_listen_flags, List.map_map, hm, List.range_succ, List.map_append]
  have h1 : (List.range m).map
      (Prod.snd ∘ fun i => (chunks.getD i "", if i = m + 1 - 1 then listen else false)) =
      List.replicate m false := by
    rw [List.map_congr_left (g := fun _ => false) ?_]
    · simpa using List.map_const' (List.range m) false
    · intro i hi
      have hilt : i < m := List.mem_range.mp hi
      simp only [Function.comp]
      rw [if_neg (by omega)]
  rw [h1]
  simp

/-- C3: when every chunk of a preprocessed sentence synthesises
successfully, `_execute` enqueues exactly one playback item per chunk, in
the chunks' original order (the item list is the image of the flagged chunk
list), with the listen flag false on every item except the last, which
carries the caller's `listen` value. -/
theorem c3_chunk_queue_order
    (synthFn : String → Except PyErr (String × Option String))
    (getVis : Option String → String → Option (List (List Char × Rat)))
    (ttsId : String) (phonetic : Bool) (sp : List (String × String))
    (preprocess : String → List String) (sentence : String) (listen : Bool)
    (chunks : List String)
    (hch : preprocess (replace_phonetic_spellings phonetic sp sentence) = chunks)
    (hne : chunks ≠ [])
    (hok : ∀ c ∈ chunks, ∃ v, synthFn c = Except.ok v) :
    ∃ items,
      tts_execute synthFn getVis ttsId phonetic sp preprocess sentence listen =
        (items, none)
      ∧ items = (apply_listen_flags chunks listen).map (okItem synthFn getVis ttsId)
      ∧ items.length = chunks.length
      ∧ items.map (fun it => it.listen) =
          List.replicate (chunks.length - 1) false ++ [listen] := by
  have hpair : ∀ p ∈ apply_listen_flags chunks listen,
      ∃ v, synthFn p.1 = Except.ok v := by
    intro p hp
    have hfst : p.1 ∈ chunks := by
      rw [← apply_listen_flags_fst chunks listen]
      exact List.mem_map_of_mem Prod.fst hp
    exact hok p.1 hfst
  refine ⟨(apply_listen_flags chunks listen).map (okItem synthFn getVis ttsId),
    ?_, rfl, ?_, ?_⟩
  · rw [tts_execute, hch]
    exact execute_loop_all_ok synthFn getVis ttsId _ hpair
  · rw [List.length_map, apply_listen_flags_length]
  · rw [List.map_map]
    have hcg : ((apply_listen_flags chunks listen).map
        ((fun it => it.listen) ∘ okItem synthFn getVis ttsId)) =
        (apply_listen_flags chunks listen).map Prod.snd := by
      apply List.map_congr_left
      intro p hp
      exact okItem_listen synthFn getVis ttsId p
    rw [hcg, apply_listen_flags_snd chunks listen hne]

/-- C3 witness: a two-chunk run with `listen = true` enqueues two items
with flags `[false, true]`. -/
theorem c3_chunk_queue_order_witness :
    ∃ items,
      tts_execute (fun s => Except.ok (s, (none : Option String)))
        (fun _ _ => none) "p/v/l" false [] (fun _ => ["a", "b"]) "x" true =
        (items, none)
      ∧ items = (apply_listen_flags ["a", "b"] true).map
          (okItem (fun s => Except.ok (s, (none : Option String)))
            (fun _ _ => none) "p/v/l")
      ∧ items.length = (["a", "b"] : List String).length
      ∧ items.map (fun it => it.listen) =
          List.replicate ((["a", "b"] : List String).length - 1) false ++ [true] :=
  c3_chunk_queue_order _ _ _ _ _ _ _ _ ["a", "b"] rfl (by decide)
    (fun c _ => ⟨(c, none), rfl⟩)

/-- C9: `TTSContext.get_cache` constructs and stores the cache instance in
the process-wide registry keyed by the namespace on first access (when the
namespace has no entry, the fresh instance is stored under it), and a
repeated call for the same namespace returns the same instance and leaves
the registry unchanged; in particular two contexts with equal `plugin_id`,
`voice` and `lang` — i.e. the same `tts_id` — share one cache instance. -/
theorem c9_cache_registry :
    (∀ (id : String) (r : CacheRegistry), r.caches.lookup id = none →
      get_cache id r = (r.nextId, ⟨(id, r.nextId) :: r.caches, r.nextId + 1⟩))
    ∧ (∀ (id : String) (r : CacheRegistry),
        get_cache id ((get_cache id r).2) = get_cache id r)
    ∧ (∀ (p v l : String) (r : CacheRegistry),
        (get_cache (tts_id p v l) ((get_cache (tts_id p v l) r).2)).1 =
          (get_cache (tts_id p v l) r).1) := by
  have hstep : ∀ (id : String) (r : CacheRegistry),
      get_cache id ((get_cache id r).2) = get_cache id r := by
    intro id r
    rw [get_cache, get_cache]
    cases hl : r.caches.lookup id with
    | some c => simp [hl]
    | none => simp [hl, List.lookup_cons]
  refine ⟨?_, hstep, ?_⟩
  · intro id r hl
    rw [get_cache]
    simp [hl, List.lookup_cons]
  · intro p v l r
    rw [hstep]

/-- C9 witness: first access on an empty registry stores and returns
instance 0 for the namespace. -/
theorem c9_cache_registry_witness :
    get_cache "p/v/l" ⟨[], 0⟩ = (0, ⟨[("p/v/l", 0)], 1⟩) :=
  c9_cache_registry.1 "p/v/l" ⟨[], 0⟩ rfl

/-- C10: in the kwargs pipeline of `synth`, the `"lang"` and `"voice"`
entries of the map that reaches the backend are exactly the resolved
context's values whenever the backend accepts those keys (and absent
otherwise) — independently of the caller-supplied `kwargs`, whose `"lang"`
and `"voice"` values can never reach the backend. -/
theorem c10_lang_voice_overwrite :
    ∀ (ctxtLang ctxtVoice : String) (accepted : String → Bool)
      (kwargs : String → Option String),
      synth_params ctxtLang ctxtVoice accepted kwargs "lang" =
        (if accepted "lang" then some ctxtLang else none)
      ∧ synth_params ctxtLang ctxtVoice accepted kwargs "voice" =
        (if accepted "voice" then some ctxtVoice else none)
      ∧ (∀ v, synth_params ctxtLang ctxtVoice accepted kwargs "lang" = some v →
          v = ctxtLang)
      ∧ (∀ v, synth_params ctxtLang ctxtVoice accepted kwargs "voice" = some v →
          v = ctxtVoice) := by
  intro cl cv acc kw
  have hlang : synth_params cl cv acc kw "lang" =
      (if acc "lang" then some cl else none) := by
    cases h : acc "lang" <;> simp [synth_params, h]
  have hvoice : synth_params cl cv acc kw "voice" =
      (if acc "voice" then some cv else none) := by
    cases h : acc "voice" <;> simp [synth_params, h]
  refine ⟨hlang, hvoice, ?_, ?_⟩
  · intro v hv
    rw [hlang] at hv
    cases h : acc "lang" with
    | true => rw [h] at hv; simp at hv; exact hv.symm
    | false => rw [h] at hv; simp at hv
  · intro v hv
    rw [hvoice] at hv
    cases h : acc "voice" with
    | true => rw [h] at hv; simp at hv; exact hv.symm
    | false => rw [h] at hv; simp at hv

/-- C10 witness: a caller-supplied `"caller"` value for `lang` is replaced
by the context's `"L"`. -/
theorem c10_lang_voice_overwrite_witness :
    synth_params "L" "V" (fun k => k == "lang") (fun _ => some "caller") "lang" =
      some "L"
    ∧ ("L" : String) = "L" := by
  constructor
  · have h := (c10_lang_voice_overwrite "L" "V" (fun k => k == "lang")
      (fun _ => some "caller")).1
    simpa using h
  · exact (c10_lang_voice_overwrite "L" "V" (fun k => k == "lang")
      (fun _ => some "caller")).2.2.1 "L" (by decide)

/-- C1 (code bug): a first `synth` of a sentence on a state whose cache does
not contain its fingerprint succeeds, invokes the backend exactly once and
stores the entry; but the second `synth` of the same sentence — the cache
hit the claim describes — raises `TypeError` instead of returning the cached
artifact, because line 503 passes `cache` as an extra positional argument to
the deprecated one-parameter `TTS.get_from_cache` (line 688).  The backend
is not re-invoked, but no cached audio (nor any phoneme backfill) is ever
returned on a hit. -/
theorem c1_cache_hit_type_error :
    ∀ (g2pArpa : Option (String → Option String))
      (get_tts : String → String → String × Option String)
      (sentence : String) (st : TTSState),
      st.entries.lookup (hash_sentence sentence) = none →
      ∃ v st', synth true g2pArpa get_tts sentence st = Except.ok (v, st')
        ∧ st'.backendCalls = st.backendCalls + 1
        ∧ (st'.entries.lookup (hash_sentence sentence)).isSome = true
        ∧ synth true g2pArpa get_tts sentence st' =
            Except.error PyErr.typeError := by
  intro g2p gt s st hl
  refine ⟨gt s (define_audio_file_path (hash_sentence s)),
    ⟨(hash_sentence s, ⟨(gt s (define_audio_file_path (hash_sentence s))).1,
      cache_phonemes g2p s (gt s (define_audio_file_path (hash_sentence s))).2⟩)
        :: st.entries,
      st.backendCalls + 1⟩, ?_, rfl, ?_, ?_⟩
  · simp [synth, hl]
  · simp [List.lookup_cons]
  · simp [synth, List.lookup_cons]

/-- C1 witness: concrete two-call run — the first call caches, the second
raises `TypeError`. -/
theorem c1_cache_hit_type_error_witness :
    ∃ v st', synth true none (fun _ w => (w, none)) "hi" ⟨[], 0⟩ =
        Except.ok (v, st')
      ∧ st'.backendCalls = 0 + 1
      ∧ (st'.entries.lookup (hash_sentence "hi")).isSome = true
      ∧ synth true none (fun _ w => (w, none)) "hi" st' =
          Except.error PyErr.typeError :=
  c1_cache_hit_type_error none (fun _ w => (w, none)) "hi" ⟨[], 0⟩ rfl
